import Mathlib

/-!
Verification of the pin-state monitoring engine of the io-Monitor repository.

The embedding follows `src/gpio_monitor.py` (class `GPIOMonitor`) together
with the broadcast glue of `src/web_server.py` (class `WebServer`).
Timestamps and durations are rationals, measured in seconds: the source works
with `datetime` values and `total_seconds()` differences, and only ever
compares or subtracts them, so exact rational arithmetic is a faithful model.
Python dictionaries with `.get` defaults are modelled as total functions with
the same default; dictionaries whose key membership the source tests
(`current_high_start`, `high_duration_history`) are modelled with `Option`.
-/

namespace GpioMonitor

/-- One record of `high_duration_history` (gpio_monitor.py lines 136-139):
`{"timestamp": current_time.isoformat(), "duration": duration}`.  The stored
timestamp is `current_time` at the falling edge that closed the interval,
i.e. the END of the high interval; the start of the interval is
`timestamp - duration`. -/
structure Entry where
  timestamp : ℚ
  duration : ℚ
deriving DecidableEq

/-- The start of a recorded high interval: the stored end timestamp minus the
stored duration. -/
def Entry.start (e : Entry) : ℚ := e.timestamp - e.duration

/-- The capacity of each per-pin history deque, `deque(maxlen=1000)`
(gpio_monitor.py line 31). -/
def capacity : ℕ := 1000

/-- An `append` on `deque(maxlen=1000)`: below capacity the element is added
at the right; at capacity the leftmost (oldest) element is discarded first.
(A deque never exceeds its maxlen, so the else branch only ever sees length
exactly 1000.) -/
def dequeAppend (l : List Entry) (e : Entry) : List Entry :=
  if l.length < capacity then l ++ [e] else l.tail ++ [e]

/-- The mutable monitoring state of a `GPIOMonitor` instance
(gpio_monitor.py lines 27-32).  `pin_states` and `transition_counts` are read
through defaults (`.get(pin, 0)` and `defaultdict(int)`), hence total
functions; `last_transition_time`, `high_duration_history` and
`current_high_start` have key membership tested by the source, hence
`Option`. -/
structure MonitorState where
  pin_states : ℕ → ℕ
  transition_counts : ℕ → ℕ
  last_transition_time : ℕ → Option ℚ
  high_duration_history : ℕ → Option (List Entry)
  current_high_start : ℕ → Option ℚ
  pin_labels : ℕ → Option String

/-- One processed transition, as observed by the debug log at
gpio_monitor.py line 145: the pin, the stored level before the tick, the
level read in the tick, and the tick timestamp `current_time`. -/
inductive Event where
  | edge (pin old_state new_state : ℕ) (t : ℚ)
deriving DecidableEq

/-- Processing of one pin in one iteration of `_monitor_loop`
(gpio_monitor.py lines 109-145).  `reading = none` models a failed
`GPIO.input` (lines 113-117: the error is logged and the loop continues with
the next pin); `reading = some n` is a successful read (in simulation mode,
the possibly flipped level).  Besides the updated state, the list of
transitions processed by this pin step is returned. -/
def processPinE (t : ℚ) (reading : Option ℕ) (pin : ℕ) (s : MonitorState) :
    MonitorState × List Event :=
  match reading with
  | none => (s, [])
  | some new_state =>
    let old_state := s.pin_states pin
    if new_state = old_state then (s, [])
    else
      let s1 : MonitorState :=
        { s with
          pin_states := Function.update s.pin_states pin new_state
          transition_counts :=
            Function.update s.transition_counts pin (s.transition_counts pin + 1)
          last_transition_time := Function.update s.last_transition_time pin (some t) }
      let s2 : MonitorState :=
        if old_state = 1 ∧ new_state = 0 then
          match s.current_high_start pin with
          | some hs =>
            { s1 with
              high_duration_history :=
                Function.update s1.high_duration_history pin
                  (some (dequeAppend ((s1.high_duration_history pin).getD []) ⟨t, t - hs⟩))
              current_high_start := Function.update s1.current_high_start pin none }
          | none => s1
        else if old_state = 0 ∧ new_state = 1 then
          { s1 with current_high_start := Function.update s1.current_high_start pin (some t) }
        else s1
      (s2, [Event.edge pin old_state new_state t])

/-- One full iteration of `_monitor_loop` over all monitored pins at
`current_time = t` (gpio_monitor.py lines 106-147), processing the pins in
list order and accumulating the processed transitions. -/
def tickE (readings : ℕ → Option ℕ) (t : ℚ) :
    List ℕ → MonitorState → MonitorState × List Event
  | [], s => (s, [])
  | pin :: rest, s =>
    let r := processPinE t (readings pin) pin s
    let w := tickE readings t rest r.1
    (w.1, r.2 ++ w.2)

/-- The state after one monitor-loop iteration, disregarding the
observation log. -/
def tick (pins : List ℕ) (readings : ℕ → Option ℕ) (t : ℚ) (s : MonitorState) :
    MonitorState :=
  (tickE readings t pins s).1

/-- `reset_counters` (gpio_monitor.py lines 174-179): `transition_counts` is
cleared (a cleared `defaultdict(int)` reads 0 everywhere) and the history
deque of every monitored pin is cleared (the `defaultdict` item access
materialises an empty deque for keys not present yet). -/
def reset_counters (pins : List ℕ) (s : MonitorState) : MonitorState :=
  { s with
    transition_counts := fun _ => 0
    high_duration_history := fun pin =>
      if pin ∈ pins then some [] else s.high_duration_history pin }

/-- One externally triggered step of the monitor: a sampling tick at time `t`
with the given per-pin read outcomes, or a `reset_counters` call. -/
inductive Op where
  | tick (t : ℚ) (readings : ℕ → Option ℕ)
  | reset

/-- A step of a run, with its observation log. -/
def stepE (pins : List ℕ) (s : MonitorState) : Op → MonitorState × List Event
  | .tick t readings => tickE readings t pins s
  | .reset => (reset_counters pins s, [])

/-- A run of the monitor over a list of operations, accumulating the
observation log. -/
def runE (pins : List ℕ) : List Op → MonitorState → MonitorState × List Event
  | [], s => (s, [])
  | op :: rest, s =>
      let r := stepE pins s op
      let w := runE pins rest r.1
      (w.1, r.2 ++ w.2)

/-- The state reached by a run, disregarding the observation log. -/
def run (pins : List ℕ) (s : MonitorState) (ops : List Op) : MonitorState :=
  (runE pins ops s).1

/-- The tick timestamps of a trace, in order. -/
def opTimes : List Op → List ℚ
  | [] => []
  | Op.tick t _ :: rest => t :: opTimes rest
  | Op.reset :: rest => opTimes rest

/-- Readings that only ever produce the levels 0 and 1, as `GPIO.input` and
the simulated flip both do. -/
def OpBinary : Op → Prop
  | .tick _ readings => ∀ p n, readings p = some n → n ≤ 1
  | .reset => True

/-- The state right after `__init__` with `_setup_simulation`
(gpio_monitor.py lines 20-45 and 76-81): every monitored pin gets an initial
level (the outcome of `random.choice([0, 1])`, taken here as a parameter) and
`last_transition_time` set to the setup time; `transition_counts`,
`high_duration_history` and `current_high_start` start empty.  Keys absent
from `pin_states` are read through `.get(pin, 0)`, hence the default 0. -/
def initState (labels : ℕ → Option String) (levels : ℕ → ℕ) (pins : List ℕ)
    (t0 : ℚ) : MonitorState where
  pin_states := fun p => if p ∈ pins then levels p else 0
  transition_counts := fun _ => 0
  last_transition_time := fun p => if p ∈ pins then some t0 else none
  high_duration_history := fun _ => none
  current_high_start := fun _ => none
  pin_labels := labels

/-- `get_pin_history` (gpio_monitor.py lines 181-194): the empty list if the
pin has no history record; otherwise the entries whose stored timestamp is at
least `cutoff_time = now - timedelta(hours=hours)`, i.e. `now - 3600 * hours`
seconds, kept in buffer order. -/
def get_pin_history (s : MonitorState) (now : ℚ) (pin : ℕ) (hours : ℚ) :
    List Entry :=
  match s.high_duration_history pin with
  | none => []
  | some l => l.filter (fun e => decide (now - 3600 * hours ≤ e.timestamp))

/-- The filter the spec states for `get_history`: the entries whose START
(the rising-edge timestamp `Entry.start`) is at least `now - hours`.  This
definition is written from the words of the spec, for comparison with
`get_pin_history` above. -/
def specGetHistory (s : MonitorState) (now : ℚ) (pin : ℕ) (hours : ℚ) :
    List Entry :=
  match s.high_duration_history pin with
  | none => []
  | some l => l.filter (fun e => decide (now - 3600 * hours ≤ Entry.start e))

/-- The `current_high_duration` field computed by `get_pin_status`
(gpio_monitor.py lines 155-157): nonzero only when the pin has a pending high
start AND its stored level is 1. -/
def live_high_duration (s : MonitorState) (now : ℚ) (pin : ℕ) : ℚ :=
  match s.current_high_start pin with
  | some hs => if s.pin_states pin = 1 then now - hs else 0
  | none => 0

/-- One pin record of the `get_pin_status` snapshot
(gpio_monitor.py lines 149-168). -/
structure PinStatus where
  state : ℕ
  label : String
  transitions : ℕ
  last_transition : ℚ
  current_high_duration : ℚ
  high_duration_history : List Entry
deriving DecidableEq

/-- The snapshot record of one pin (gpio_monitor.py lines 154-166).  The
history field is the Python slice `list(...)[-50:]`, the last 50 entries.
The source reads the history deque through a `defaultdict` item access, which
materialises an empty deque for an absent key; an absent key and an empty
deque are observationally equal here, and both are read as `[]`. -/
def pin_status (s : MonitorState) (now : ℚ) (pin : ℕ) : PinStatus where
  state := s.pin_states pin
  label := (s.pin_labels pin).getD ("GPIO " ++ toString pin)
  transitions := s.transition_counts pin
  last_transition := (s.last_transition_time pin).getD now
  current_high_duration := live_high_duration s now pin
  high_duration_history :=
    ((s.high_duration_history pin).getD []).drop
      (((s.high_duration_history pin).getD []).length - 50)

/-- `get_pin_status` (gpio_monitor.py lines 149-168): the per-pin snapshot of
every monitored pin, keyed by pin id. -/
def get_pin_status (s : MonitorState) (now : ℚ) (pins : List ℕ) :
    List (ℕ × PinStatus) :=
  pins.map (fun pin => (pin, pin_status s now pin))

/-- The configuration consumed by `__init__` (gpio_monitor.py lines 20-28). -/
structure Config where
  pins_to_monitor : List ℕ
  update_interval : ℚ
  history_duration_minutes : ℚ
  pin_labels : ℕ → Option String

/-- The default configuration returned at gpio_monitor.py lines 54-59:
pins 2 through 27, a 100 ms interval, a 60 minute window, no labels. -/
def defaultConfig : Config where
  pins_to_monitor := List.range' 2 26
  update_interval := 1 / 10
  history_duration_minutes := 60
  pin_labels := fun _ => none

/-- The possible outcomes of opening and parsing the configuration file. -/
inductive ConfigSrc where
  | missing
  | malformed
  | parsed (c : Config)

/-- `_load_config` (gpio_monitor.py lines 47-59): only `FileNotFoundError`
is caught, returning the defaults; a JSON parse error
(`json.JSONDecodeError`) is not caught and propagates to the caller of
`__init__`. -/
def load_config : ConfigSrc → Except Unit Config
  | .missing => .ok defaultConfig
  | .malformed => .error ()
  | .parsed c => .ok c

/-- A state-change record as delivered to `WebServer._on_gpio_state_change`
(web_server.py lines 168-184). -/
structure StateChange where
  pin : ℕ
  old_state : ℕ
  new_state : ℕ
  t : ℚ
deriving DecidableEq

/-- Modelled from the spec: web_server.py line 40 registers
`_on_gpio_state_change` through `GPIOMonitor.set_state_change_callback`, but
that method and the callback invocation it installs are absent from
src/src/gpio_monitor.py (only the caller is present).  Per the spec
(4.3 step 5), the Transition Tracker emits `{line_id, old_level, new_level,
tick_timestamp}` to every registered listener synchronously for each
processed edge, before the tick step returns; the deliveries of one tick are
therefore exactly its processed transitions, in processing order. -/
def deliveredChanges (pins : List ℕ) (readings : ℕ → Option ℕ) (t : ℚ)
    (s : MonitorState) : List StateChange :=
  (tickE readings t pins s).2.map (fun ev =>
    match ev with
    | .edge pin o n time => ⟨pin, o, n, time⟩)

/-- `WebServer._on_gpio_state_change` (web_server.py lines 168-184): on every
delivered state change, the full `get_pin_status` snapshot is published under
the event name `gpio_update`. -/
def on_gpio_state_change (s : MonitorState) (now : ℚ) (pins : List ℕ)
    (_c : StateChange) : String × List (ℕ × PinStatus) :=
  ("gpio_update", get_pin_status s now pins)

/-! ### Helper lemmas on the embedding -/

/-- A pin step never touches the record of a different pin. -/
theorem processPinE_apply_ne (t : ℚ) (r : Option ℕ) (pin q : ℕ) (s : MonitorState)
    (hq : q ≠ pin) :
    (processPinE t r pin s).1.pin_states q = s.pin_states q ∧
    (processPinE t r pin s).1.transition_counts q = s.transition_counts q ∧
    (processPinE t r pin s).1.last_transition_time q = s.last_transition_time q ∧
    (processPinE t r pin s).1.high_duration_history q = s.high_duration_history q ∧
    (processPinE t r pin s).1.current_high_start q = s.current_high_start q ∧
    (processPinE t r pin s).1.pin_labels q = s.pin_labels q := by
  rcases r with _ | n
  · simp [processPinE]
  · by_cases hne : n = s.pin_states pin
    · simp [processPinE, hne]
    · simp only [processPinE, hne, if_false]
      split
      · rcases h : s.current_high_start pin with _ | hs <;>
          simp [h, Function.update, hq]
      · split <;> simp [Function.update, hq]

/-- The labels map is never modified by a pin step. -/
theorem processPinE_labels (t : ℚ) (r : Option ℕ) (pin : ℕ) (s : MonitorState) :
    (processPinE t r pin s).1.pin_labels = s.pin_labels := by
  rcases r with _ | n
  · simp [processPinE]
  · by_cases hne : n = s.pin_states pin
    · simp [processPinE, hne]
    · simp only [processPinE, hne, if_false]
      split
      · rcases h : s.current_high_start pin with _ | hs <;> simp [h]
      · split <;> simp

/-- A pin step with a failed read is the identity, with no observation. -/
theorem processPinE_none (t : ℚ) (pin : ℕ) (s : MonitorState) :
    processPinE t none pin s = (s, []) := rfl

/-- A deque append never grows a buffer beyond the capacity. -/
theorem dequeAppend_length_le (l : List Entry) (e : Entry)
    (h : l.length ≤ capacity) : (dequeAppend l e).length ≤ capacity := by
  unfold dequeAppend
  split
  · next hlt => simpa using hlt
  · next hge =>
    have h1 : l.length = capacity := le_antisymm h (not_lt.mp hge)
    have h2 : 0 < l.length := by rw [h1]; norm_num [capacity]
    simp [List.length_tail, h1]
    omega

/-- Every element of a deque append was in the buffer or is the new entry. -/
theorem mem_dequeAppend {l : List Entry} {x e : Entry}
    (h : e ∈ dequeAppend l x) : e ∈ l ∨ e = x := by
  unfold dequeAppend at h
  split at h <;> simp only [List.mem_append, List.mem_singleton] at h
  · exact h
  · rcases h with h | h
    · exact Or.inl ((List.tail_sublist l).subset h)
    · exact Or.inr h

/-! ### Soundness of recorded intervals -/

/-- Every pending high start of `s` is the timestamp of an already observed
rising edge of its pin, and none is later than the bound `b`. -/
def PendingSound (s : MonitorState) (evs : List Event) (b : ℚ) : Prop :=
  ∀ pin hs, s.current_high_start pin = some hs →
    hs ≤ b ∧ Event.edge pin 0 1 hs ∈ evs

/-- Every recorded interval has a non-negative duration and starts at the
timestamp of an already observed rising edge of its pin. -/
def HistorySound (s : MonitorState) (evs : List Event) : Prop :=
  ∀ pin l, s.high_duration_history pin = some l →
    ∀ e ∈ l, 0 ≤ e.duration ∧ Event.edge pin 0 1 (Entry.start e) ∈ evs

theorem pendingSound_mono {s : MonitorState} {evs evs2 : List Event} {b b2 : ℚ}
    (h : PendingSound s evs b) (hb : b ≤ b2) (he : evs ⊆ evs2) :
    PendingSound s evs2 b2 := by
  intro pin hs hp
  obtain ⟨h1, h2⟩ := h pin hs hp
  exact ⟨le_trans h1 hb, he h2⟩

theorem historySound_mono {s : MonitorState} {evs evs2 : List Event}
    (h : HistorySound s evs) (he : evs ⊆ evs2) : HistorySound s evs2 := by
  intro pin l hl e hm
  obtain ⟨h1, h2⟩ := h pin l hl e hm
  exact ⟨h1, he h2⟩

/-- One pin step preserves the soundness of pendings and history, with the
tick timestamp as the bound. -/
theorem processPinE_sound (t : ℚ) (r : Option ℕ) (pin : ℕ) (s : MonitorState)
    (evs : List Event) (hp : PendingSound s evs t) (hh : HistorySound s evs) :
    PendingSound (processPinE t r pin s).1 (evs ++ (processPinE t r pin s).2) t ∧
    HistorySound (processPinE t r pin s).1 (evs ++ (processPinE t r pin s).2) := by
  have hsub : ∀ l : List Event, evs ⊆ evs ++ l := fun _ => List.subset_append_left _ _
  rcases r with _ | n
  · exact ⟨pendingSound_mono hp le_rfl (hsub _), historySound_mono hh (hsub _)⟩
  · by_cases hne : n = s.pin_states pin
    · have hred : processPinE t (some n) pin s = (s, []) := by
        simp [processPinE, hne]
      rw [hred]
      exact ⟨pendingSound_mono hp le_rfl (hsub _), historySound_mono hh (hsub _)⟩
    · by_cases hfall : s.pin_states pin = 1 ∧ n = 0
      · rcases hpend : s.current_high_start pin with _ | hs
        · have hred : (processPinE t (some n) pin s).1.current_high_start =
              s.current_high_start ∧
              (processPinE t (some n) pin s).1.high_duration_history =
              s.high_duration_history := by
            simp [processPinE, hne, hfall.1, hfall.2, hpend]
          constructor
          · intro q hq hsq
            rw [hred.1] at hsq
            exact (hp q hq hsq).imp id (fun h => hsub _ h)
          · intro q l hl e hm
            rw [hred.2] at hl
            exact (hh q l hl e hm).imp id (fun h => hsub _ h)
        · obtain ⟨hb, hev⟩ := hp pin hs hpend
          have hred : (processPinE t (some n) pin s).1.current_high_start =
              Function.update s.current_high_start pin none ∧
              (processPinE t (some n) pin s).1.high_duration_history =
              Function.update s.high_duration_history pin
                (some (dequeAppend ((s.high_duration_history pin).getD [])
                  ⟨t, t - hs⟩)) := by
            simp [processPinE, hne, hfall.1, hfall.2, hpend]
          constructor
          · intro q hq hsq
            rw [hred.1] at hsq
            by_cases hqp : q = pin
            · subst hqp; rw [Function.update_same] at hsq; cases hsq
            · rw [Function.update_noteq hqp] at hsq
              exact (hp q hq hsq).imp id (fun h => hsub _ h)
          · intro q l hl e hm
            rw [hred.2] at hl
            by_cases hqp : q = pin
            · subst hqp
              rw [Function.update_same] at hl
              obtain rfl : dequeAppend ((s.high_duration_history q).getD [])
                  ⟨t, t - hs⟩ = l := by
                injection hl
              rcases mem_dequeAppend hm with hold | rfl
              · rcases hd : s.high_duration_history q with _ | l0
                · rw [hd] at hold; simp at hold
                · rw [hd] at hold; simp only [Option.getD_some] at hold
                  exact (hh q l0 hd e hold).imp id (fun h => hsub _ h)
              · refine ⟨by simp; linarith, ?_⟩
                have hst : Entry.start ⟨t, t - hs⟩ = hs := by
                  simp [Entry.start]
                rw [hst]
                exact hsub _ hev
            · rw [Function.update_noteq hqp] at hl
              exact (hh q l hl e hm).imp id (fun h => hsub _ h)
      · by_cases hrise : s.pin_states pin = 0 ∧ n = 1
        · have hred : (processPinE t (some n) pin s).1.current_high_start =
              Function.update s.current_high_start pin (some t) ∧
              (processPinE t (some n) pin s).1.high_duration_history =
              s.high_duration_history ∧
              (processPinE t (some n) pin s).2 =
              [Event.edge pin 0 1 t] := by
            simp [processPinE, hne, hrise.1, hrise.2, hfall]
          constructor
          · intro q hq hsq
            rw [hred.1] at hsq
            by_cases hqp : q = pin
            · subst hqp
              rw [Function.update_same] at hsq
              obtain rfl : t = hq := by injection hsq
              refine ⟨le_rfl, ?_⟩
              rw [hred.2.2]
              simp
            · rw [Function.update_noteq hqp] at hsq
              exact (hp q hq hsq).imp id (fun h => hsub _ h)
          · intro q l hl e hm
            rw [hred.2.1] at hl
            exact (hh q l hl e hm).imp id (fun h => hsub _ h)
        · have hred : (processPinE t (some n) pin s).1.current_high_start =
              s.current_high_start ∧
              (processPinE t (some n) pin s).1.high_duration_history =
              s.high_duration_history := by
            simp [processPinE, hne, hfall, hrise]
          constructor
          · intro q hq hsq
            rw [hred.1] at hsq
            exact (hp q hq hsq).imp id (fun h => hsub _ h)
          · intro q l hl e hm
            rw [hred.2] at hl
            exact (hh q l hl e hm).imp id (fun h => hsub _ h)

/-- A reset preserves the soundness of pendings and history. -/
theorem reset_sound (pins : List ℕ) (s : MonitorState) (evs : List Event) (b : ℚ)
    (hp : PendingSound s evs b) (hh : HistorySound s evs) :
    PendingSound (reset_counters pins s) evs b ∧
    HistorySound (reset_counters pins s) evs := by
  refine ⟨fun q hq hsq => hp q hq hsq, ?_⟩
  intro q l hl e hm
  simp only [reset_counters] at hl
  by_cases hqp : q ∈ pins
  · rw [if_pos hqp] at hl
    obtain rfl : ([] : List Entry) = l := by injection hl
    simp at hm
  · rw [if_neg hqp] at hl
    exact hh q l hl e hm

/-- A whole tick preserves the soundness of pendings and history, with the
tick timestamp as the bound. -/
theorem tickE_sound (readings : ℕ → Option ℕ) (t : ℚ) :
    ∀ (pins : List ℕ) (s : MonitorState) (evs : List Event),
      PendingSound s evs t → HistorySound s evs →
      PendingSound (tickE readings t pins s).1
        (evs ++ (tickE readings t pins s).2) t ∧
      HistorySound (tickE readings t pins s).1
        (evs ++ (tickE readings t pins s).2) := by
  intro pins
  induction pins with
  | nil =>
    intro s evs hp hh
    simp only [tickE, List.append_nil]
    exact ⟨hp, hh⟩
  | cons p rest ih =>
    intro s evs hp hh
    obtain ⟨hp1, hh1⟩ := processPinE_sound t (readings p) p s evs hp hh
    obtain ⟨hp2, hh2⟩ := ih (processPinE t (readings p) p s).1
      (evs ++ (processPinE t (readings p) p s).2) hp1 hh1
    rw [List.append_assoc] at hp2 hh2
    simp only [tickE]
    exact ⟨hp2, hh2⟩

/-- A run whose tick timestamps are non-decreasing and start no earlier than
the bound preserves the soundness of pendings and history. -/
theorem runE_sound (pins : List ℕ) :
    ∀ (ops : List Op) (s : MonitorState) (evs : List Event) (b : ℚ),
      PendingSound s evs b → HistorySound s evs →
      List.Chain (· ≤ ·) b (opTimes ops) →
      ∃ b2, PendingSound (runE pins ops s).1 (evs ++ (runE pins ops s).2) b2 ∧
            HistorySound (runE pins ops s).1 (evs ++ (runE pins ops s).2) := by
  intro ops
  induction ops with
  | nil =>
    intro s evs b hp hh _
    refine ⟨b, ?_⟩
    simp only [runE, List.append_nil]
    exact ⟨hp, hh⟩
  | cons op rest ih =>
    intro s evs b hp hh hchain
    cases op with
    | tick t readings =>
      rw [opTimes] at hchain
      obtain ⟨hbt, hchain2⟩ := List.chain_cons.mp hchain
      obtain ⟨hp1, hh1⟩ :=
        tickE_sound readings t pins s evs (pendingSound_mono hp hbt (fun _ hx => hx)) hh
      obtain ⟨b2, hp2, hh2⟩ := ih (tickE readings t pins s).1
        (evs ++ (tickE readings t pins s).2) t hp1 hh1 hchain2
      rw [List.append_assoc] at hp2 hh2
      refine ⟨b2, ?_, ?_⟩ <;> · simp only [runE, stepE]; assumption
    | reset =>
      rw [opTimes] at hchain
      obtain ⟨hp1, hh1⟩ := reset_sound pins s evs b hp hh
      obtain ⟨b2, hp2, hh2⟩ := ih (reset_counters pins s) evs b hp1 hh1 hchain
      refine ⟨b2, ?_, ?_⟩ <;> · simp only [runE, stepE, List.nil_append]; assumption

/-! ### Consistency of pendings with stored levels -/

/-- The fields common to every edge branch of a pin step. -/
theorem processPinE_edge_fields (t : ℚ) (n pin : ℕ) (s : MonitorState)
    (hne : ¬ n = s.pin_states pin) :
    (processPinE t (some n) pin s).1.pin_states =
      Function.update s.pin_states pin n ∧
    (processPinE t (some n) pin s).1.transition_counts =
      Function.update s.transition_counts pin (s.transition_counts pin + 1) ∧
    (processPinE t (some n) pin s).1.last_transition_time =
      Function.update s.last_transition_time pin (some t) ∧
    (processPinE t (some n) pin s).2 =
      [Event.edge pin (s.pin_states pin) n t] := by
  refine ⟨?_, ?_, ?_, ?_⟩ <;>
    · simp only [processPinE, if_neg hne]
      all_goals repeat' split
      all_goals rfl

/-- All stored levels are binary. -/
def LevelsBinary (s : MonitorState) : Prop := ∀ pin, s.pin_states pin ≤ 1

/-- A pending high start only exists on a pin whose stored level is high. -/
def PendingHigh (s : MonitorState) : Prop :=
  ∀ pin, (s.current_high_start pin).isSome → s.pin_states pin = 1

/-- Once a pin has processed at least one edge, its pending entry exists
exactly when its stored level is high. -/
def EdgeSettled (s : MonitorState) (evs : List Event) : Prop :=
  ∀ pin o m u, Event.edge pin o m u ∈ evs →
    (s.pin_states pin = 1 ↔ (s.current_high_start pin).isSome)

/-- One pin step with a binary reading preserves the consistency of pendings
with levels. -/
theorem processPinE_consistent (t : ℚ) (r : Option ℕ) (pin : ℕ) (s : MonitorState)
    (evs : List Event) (hr : ∀ m, r = some m → m ≤ 1)
    (hb : LevelsBinary s) (hph : PendingHigh s) (hes : EdgeSettled s evs) :
    LevelsBinary (processPinE t r pin s).1 ∧
    PendingHigh (processPinE t r pin s).1 ∧
    EdgeSettled (processPinE t r pin s).1 (evs ++ (processPinE t r pin s).2) := by
  rcases r with _ | n
  · exact ⟨hb, hph, fun q o m u hm => hes q o m u (by simpa [processPinE] using hm)⟩
  · have hn : n ≤ 1 := hr n rfl
    by_cases hne : n = s.pin_states pin
    · have hred : processPinE t (some n) pin s = (s, []) := by
        simp [processPinE, hne]
      rw [hred]
      exact ⟨hb, hph, fun q o m u hm => hes q o m u (by simpa using hm)⟩
    · have hold : s.pin_states pin ≤ 1 := hb pin
      obtain ⟨hps, _hct, _hlt, hev⟩ := processPinE_edge_fields t n pin s hne
      have hmem : ∀ {q o m u}, Event.edge q o m u ∈
          evs ++ (processPinE t (some n) pin s).2 → q ≠ pin →
          Event.edge q o m u ∈ evs := by
        intro q o m u hm hqp
        rw [hev] at hm
        rcases List.mem_append.mp hm with hm | hm
        · exact hm
        · rw [List.mem_singleton] at hm
          cases hm
          exact absurd rfl hqp
      have hcase : (s.pin_states pin = 0 ∧ n = 1) ∨
          (s.pin_states pin = 1 ∧ n = 0) := by omega
      rcases hcase with ⟨h0, h1⟩ | ⟨h0, h1⟩
      · have hpd : (processPinE t (some n) pin s).1.current_high_start =
            Function.update s.current_high_start pin (some t) := by
          simp [processPinE, hne, h0, h1]
        refine ⟨?_, ?_, ?_⟩
        · intro q
          rw [hps]
          by_cases hqp : q = pin
          · subst hqp; rw [Function.update_same]; exact hn
          · rw [Function.update_noteq hqp]; exact hb q
        · intro q hq
          rw [hpd] at hq
          rw [hps]
          by_cases hqp : q = pin
          · subst hqp; rw [Function.update_same]; exact h1
          · rw [Function.update_noteq hqp] at hq
            rw [Function.update_noteq hqp]
            exact hph q hq
        · intro q o m u hm
          rw [hps, hpd]
          by_cases hqp : q = pin
          · subst hqp
            rw [Function.update_same, Function.update_same]
            simp [h1]
          · rw [Function.update_noteq hqp, Function.update_noteq hqp]
            exact hes q o m u (hmem hm hqp)
      · have hlev : ∀ q, (processPinE t (some n) pin s).1.pin_states q ≤ 1 ∧
            (q = pin → (processPinE t (some n) pin s).1.pin_states q = 0) ∧
            (q ≠ pin → (processPinE t (some n) pin s).1.pin_states q =
              s.pin_states q) := by
          intro q
          rw [hps]
          by_cases hqp : q = pin
          · subst hqp
            rw [Function.update_same]
            omega
          · rw [Function.update_noteq hqp]
            exact ⟨hb q, fun h => absurd h hqp, fun _ => rfl⟩
        rcases hpend : s.current_high_start pin with _ | hs
        · have hpd : (processPinE t (some n) pin s).1.current_high_start =
              s.current_high_start := by
            simp [processPinE, hne, h0, h1, hpend]
          refine ⟨fun q => (hlev q).1, ?_, ?_⟩
          · intro q hq
            rw [hpd] at hq
            by_cases hqp : q = pin
            · subst hqp; rw [hpend] at hq; simp at hq
            · rw [((hlev q).2.2 hqp)]
              exact hph q hq
          · intro q o m u hm
            rw [hpd]
            by_cases hqp : q = pin
            · rw [(hlev q).2.1 hqp]
              subst hqp
              rw [hpend]
              simp
            · rw [((hlev q).2.2 hqp)]
              exact hes q o m u (hmem hm hqp)
        · have hpd : (processPinE t (some n) pin s).1.current_high_start =
              Function.update s.current_high_start pin none := by
            simp [processPinE, hne, h0, h1, hpend]
          refine ⟨fun q => (hlev q).1, ?_, ?_⟩
          · intro q hq
            rw [hpd] at hq
            by_cases hqp : q = pin
            · subst hqp; rw [Function.update_same] at hq; simp at hq
            · rw [Function.update_noteq hqp] at hq
              rw [((hlev q).2.2 hqp)]
              exact hph q hq
          · intro q o m u hm
            rw [hpd]
            by_cases hqp : q = pin
            · rw [(hlev q).2.1 hqp]
              subst hqp
              rw [Function.update_same]
              simp
            · rw [Function.update_noteq hqp, ((hlev q).2.2 hqp)]
              exact hes q o m u (hmem hm hqp)

/-- A reset preserves the consistency of pendings with levels. -/
theorem reset_consistent (pins : List ℕ) (s : MonitorState) (evs : List Event)
    (hb : LevelsBinary s) (hph : PendingHigh s) (hes : EdgeSettled s evs) :
    LevelsBinary (reset_counters pins s) ∧ PendingHigh (reset_counters pins s) ∧
    EdgeSettled (reset_counters pins s) evs :=
  ⟨hb, hph, hes⟩

/-- A whole tick with binary readings preserves the consistency of pendings
with levels. -/
theorem tickE_consistent (readings : ℕ → Option ℕ) (t : ℚ)
    (hr : ∀ p m, readings p = some m → m ≤ 1) :
    ∀ (pins : List ℕ) (s : MonitorState) (evs : List Event),
      LevelsBinary s → PendingHigh s → EdgeSettled s evs →
      LevelsBinary (tickE readings t pins s).1 ∧
      PendingHigh (tickE readings t pins s).1 ∧
      EdgeSettled (tickE readings t pins s).1
        (evs ++ (tickE readings t pins s).2) := by
  intro pins
  induction pins with
  | nil =>
    intro s evs hb hph hes
    simp only [tickE, List.append_nil]
    exact ⟨hb, hph, hes⟩
  | cons p rest ih =>
    intro s evs hb hph hes
    obtain ⟨hb1, hph1, hes1⟩ :=
      processPinE_consistent t (readings p) p s evs (hr p) hb hph hes
    obtain ⟨hb2, hph2, hes2⟩ := ih (processPinE t (readings p) p s).1
      (evs ++ (processPinE t (readings p) p s).2) hb1 hph1 hes1
    rw [List.append_assoc] at hes2
    simp only [tickE]
    exact ⟨hb2, hph2, hes2⟩

/-- A run made of binary ticks and resets preserves the consistency of
pendings with levels. -/
theorem runE_consistent (pins : List ℕ) :
    ∀ (ops : List Op) (s : MonitorState) (evs : List Event),
      (∀ op ∈ ops, OpBinary op) →
      LevelsBinary s → PendingHigh s → EdgeSettled s evs →
      LevelsBinary (runE pins ops s).1 ∧ PendingHigh (runE pins ops s).1 ∧
      EdgeSettled (runE pins ops s).1 (evs ++ (runE pins ops s).2) := by
  intro ops
  induction ops with
  | nil =>
    intro s evs _ hb hph hes
    simp only [runE, List.append_nil]
    exact ⟨hb, hph, hes⟩
  | cons op rest ih =>
    intro s evs hops hb hph hes
    have hop : OpBinary op := hops op (List.mem_cons_self op rest)
    have hrest : ∀ o ∈ rest, OpBinary o := fun o ho =>
      hops o (List.mem_cons_of_mem op ho)
    cases op with
    | tick t readings =>
      obtain ⟨hb1, hph1, hes1⟩ := tickE_consistent readings t hop pins s evs hb hph hes
      obtain ⟨hb2, hph2, hes2⟩ := ih (tickE readings t pins s).1
        (evs ++ (tickE readings t pins s).2) hrest hb1 hph1 hes1
      rw [List.append_assoc] at hes2
      refine ⟨?_, ?_, ?_⟩ <;> · simp only [runE, stepE]; assumption
    | reset =>
      obtain ⟨hb1, hph1, hes1⟩ := reset_consistent pins s evs hb hph hes
      obtain ⟨hb2, hph2, hes2⟩ := ih (reset_counters pins s) evs hrest hb1 hph1 hes1
      refine ⟨?_, ?_, ?_⟩ <;> · simp only [runE, stepE, List.nil_append]; assumption

/-! ### Boundedness of the history buffers -/

/-- Every history buffer holds at most `capacity` entries. -/
def HistoryBounded (s : MonitorState) : Prop :=
  ∀ pin l, s.high_duration_history pin = some l → l.length ≤ capacity

/-- One pin step keeps every history buffer within capacity. -/
theorem processPinE_bounded (t : ℚ) (r : Option ℕ) (pin : ℕ) (s : MonitorState)
    (hb : HistoryBounded s) : HistoryBounded (processPinE t r pin s).1 := by
  rcases r with _ | n
  · exact hb
  · by_cases hne : n = s.pin_states pin
    · have hred : processPinE t (some n) pin s = (s, []) := by
        simp [processPinE, hne]
      rw [hred]; exact hb
    · by_cases hfall : s.pin_states pin = 1 ∧ n = 0
      · rcases hpend : s.current_high_start pin with _ | hs
        · have hred : (processPinE t (some n) pin s).1.high_duration_history =
              s.high_duration_history := by
            simp [processPinE, hne, hfall.1, hfall.2, hpend]
          intro q l hl
          rw [hred] at hl
          exact hb q l hl
        · have hred : (processPinE t (some n) pin s).1.high_duration_history =
              Function.update s.high_duration_history pin
                (some (dequeAppend ((s.high_duration_history pin).getD [])
                  ⟨t, t - hs⟩)) := by
            simp [processPinE, hne, hfall.1, hfall.2, hpend]
          intro q l hl
          rw [hred] at hl
          by_cases hqp : q = pin
          · subst hqp
            rw [Function.update_same] at hl
            obtain rfl : dequeAppend ((s.high_duration_history q).getD [])
                ⟨t, t - hs⟩ = l := by
              injection hl
            refine dequeAppend_length_le _ _ ?_
            rcases hd : s.high_duration_history q with _ | l0
            · simp [capacity]
            · simpa using hb q l0 hd
          · rw [Function.update_noteq hqp] at hl
            exact hb q l hl
      · have hred : (processPinE t (some n) pin s).1.high_duration_history =
            s.high_duration_history := by
          simp only [processPinE]
          simp only [hne, hfall, ite_false, if_false]
          split
          · rfl
          · rfl
        intro q l hl
        rw [hred] at hl
        exact hb q l hl

/-- A reset keeps every history buffer within capacity. -/
theorem reset_bounded (pins : List ℕ) (s : MonitorState)
    (hb : HistoryBounded s) : HistoryBounded (reset_counters pins s) := by
  intro q l hl
  simp only [reset_counters] at hl
  by_cases hqp : q ∈ pins
  · rw [if_pos hqp] at hl
    obtain rfl : ([] : List Entry) = l := by injection hl
    simp [capacity]
  · rw [if_neg hqp] at hl
    exact hb q l hl

/-- A whole tick keeps every history buffer within capacity. -/
theorem tickE_bounded (readings : ℕ → Option ℕ) (t : ℚ) :
    ∀ (pins : List ℕ) (s : MonitorState), HistoryBounded s →
      HistoryBounded (tickE readings t pins s).1 := by
  intro pins
  induction pins with
  | nil => intro s hb; exact hb
  | cons p rest ih =>
    intro s hb
    simp only [tickE]
    exact ih _ (processPinE_bounded t (readings p) p s hb)

/-- A run keeps every history buffer within capacity. -/
theorem runE_bounded (pins : List ℕ) :
    ∀ (ops : List Op) (s : MonitorState), HistoryBounded s →
      HistoryBounded (runE pins ops s).1 := by
  intro ops
  induction ops with
  | nil => intro s hb; exact hb
  | cons op rest ih =>
    intro s hb
    cases op with
    | tick t readings =>
      simp only [runE, stepE]
      exact ih _ (tickE_bounded readings t pins s hb)
    | reset =>
      simp only [runE, stepE]
      exact ih _ (reset_bounded pins s hb)

/-! ### Frame lemmas for a failed read -/

/-- A tick leaves every field of a pin whose read failed exactly as it was. -/
theorem tickE_fields_at_skipped (readings : ℕ → Option ℕ) (t : ℚ) (p : ℕ)
    (hp : readings p = none) :
    ∀ (pins : List ℕ) (s : MonitorState),
      (tickE readings t pins s).1.pin_states p = s.pin_states p ∧
      (tickE readings t pins s).1.transition_counts p = s.transition_counts p ∧
      (tickE readings t pins s).1.last_transition_time p = s.last_transition_time p ∧
      (tickE readings t pins s).1.high_duration_history p = s.high_duration_history p ∧
      (tickE readings t pins s).1.current_high_start p = s.current_high_start p ∧
      (tickE readings t pins s).1.pin_labels p = s.pin_labels p := by
  intro pins
  induction pins with
  | nil => intro s; exact ⟨rfl, rfl, rfl, rfl, rfl, rfl⟩
  | cons q rest ih =>
    intro s
    simp only [tickE]
    by_cases hqp : q = p
    · subst hqp
      rw [hp]
      exact ih s
    · have h6 := processPinE_apply_ne t (readings q) q p s (fun h => hqp h.symm)
      obtain ⟨g1, g2, g3, g4, g5, g6⟩ := ih (processPinE t (readings q) q s).1
      exact ⟨g1.trans h6.1, g2.trans h6.2.1, g3.trans h6.2.2.1,
             g4.trans h6.2.2.2.1, g5.trans h6.2.2.2.2.1, g6.trans h6.2.2.2.2.2⟩

/-- A tick in which the read of pin `p` fails is the same tick with `p`
dropped from the scan list: the remaining pins are processed identically. -/
theorem tickE_skip (readings : ℕ → Option ℕ) (t : ℚ) (p : ℕ)
    (hp : readings p = none) :
    ∀ (pins : List ℕ) (s : MonitorState),
      tickE readings t pins s =
        tickE readings t (pins.filter (fun q => q != p)) s := by
  intro pins
  induction pins with
  | nil => intro s; rfl
  | cons q rest ih =>
    intro s
    by_cases hqp : q = p
    · subst hqp
      simp only [tickE, hp, processPinE_none, List.nil_append, List.filter_cons,
        bne_self_eq_false, Bool.false_eq_true, if_false]
      rw [← ih s]
    · have hq : (q != p) = true := by simp [hqp]
      simp only [tickE, List.filter_cons, hq, if_true]
      rw [ih]

/-! ### The processed transitions of one tick -/

theorem filterMap_congr_mem {α β : Type} (f g : α → Option β) :
    ∀ (l : List α), (∀ a ∈ l, f a = g a) → l.filterMap f = l.filterMap g := by
  intro l
  induction l with
  | nil => intro _; rfl
  | cons a rest ih =>
    intro h
    have ha : f a = g a := h a (List.mem_cons_self a rest)
    have hrest : rest.filterMap f = rest.filterMap g :=
      ih (fun b hb => h b (List.mem_cons_of_mem a hb))
    simp only [List.filterMap_cons, ha, hrest]

/-- The transitions processed by one tick over a duplicate-free scan list:
one per pin whose successful read differs from its stored pre-tick level,
carrying the pre-tick level, the read level and the tick timestamp, in scan
order. -/
theorem tickE_events (readings : ℕ → Option ℕ) (t : ℚ) :
    ∀ (pins : List ℕ) (s : MonitorState), pins.Nodup →
      (tickE readings t pins s).2 = pins.filterMap (fun p =>
        match readings p with
        | none => none
        | some n =>
          if n = s.pin_states p then none
          else some (Event.edge p (s.pin_states p) n t)) := by
  intro pins
  induction pins with
  | nil => intro s _; rfl
  | cons p rest ih =>
    intro s hnd
    obtain ⟨hpr, hnd2⟩ := List.nodup_cons.mp hnd
    rcases hr : readings p with _ | n
    · simp only [tickE, hr, processPinE_none, List.nil_append, List.filterMap_cons]
      exact ih s hnd2
    · by_cases hne : n = s.pin_states p
      · subst hne
        have hred : processPinE t (some (s.pin_states p)) p s = (s, []) := by
          simp [processPinE]
        simp only [tickE, hr, hred, List.nil_append, List.filterMap_cons,
          ite_true, if_pos rfl]
        exact ih s hnd2
      · obtain ⟨hps, _hct, _hlt, hev⟩ := processPinE_edge_fields t n p s hne
        have hcongr : rest.filterMap (fun q =>
            match readings q with
            | none => none
            | some m =>
              if m = (processPinE t (some n) p s).1.pin_states q then none
              else some (Event.edge q ((processPinE t (some n) p s).1.pin_states q) m t)) =
            rest.filterMap (fun q =>
            match readings q with
            | none => none
            | some m =>
              if m = s.pin_states q then none
              else some (Event.edge q (s.pin_states q) m t)) := by
          refine filterMap_congr_mem _ _ rest (fun q hq => ?_)
          have hqp : q ≠ p := fun h => hpr (h ▸ hq)
          rw [hps, Function.update_noteq hqp]
        simp only [tickE, hr, List.filterMap_cons, hne, if_neg hne, hev]
        rw [ih (processPinE t (some n) p s).1 hnd2, hcongr]
        rfl

/-! ### Concrete states used in witnesses and counterexamples -/

/-- A state whose pin 5 holds one recorded interval ending at time 4000 with
duration 3700, hence starting at time 300. -/
def historyState : MonitorState :=
  { initState (fun _ => none) (fun _ => 0) [5] 0 with
    high_duration_history := fun p => if p = 5 then some [⟨4000, 3700⟩] else none }

/-- A state whose pin 5 is high with 3 transitions, 2 recorded intervals and
a pending high start, matching the reset scenario of the spec. -/
def busyState : MonitorState :=
  { initState (fun _ => none) (fun _ => 1) [5] 0 with
    transition_counts := fun p => if p = 5 then 3 else 0
    high_duration_history := fun p => if p = 5 then some [⟨1, 1⟩, ⟨3, 1⟩] else none
    current_high_start := fun p => if p = 5 then some 4 else none }

/-! ### The claims -/

/-- C1, counterexample.  `get_pin_history` filters on the STORED timestamp of
each entry, which is the end (falling-edge time) of the interval, not its
start: the entry ending at 4000 with duration 3700 starts at 300, which is
before the cutoff 4000 - 3600 = 400, yet the source keeps it, while the
subset described by the spec (start at least the cutoff) is empty.  Also,
`hours = 0` does not return an empty sequence when an entry ends exactly at
`now`. -/
theorem get_history_start_filter_refuted :
    get_pin_history historyState 4000 5 1 = [⟨4000, 3700⟩] ∧
    specGetHistory historyState 4000 5 1 = [] ∧
    get_pin_history historyState 4000 5 1 ≠ specGetHistory historyState 4000 5 1 ∧
    get_pin_history historyState 4000 5 0 = [⟨4000, 3700⟩] := by
  have h1 : get_pin_history historyState 4000 5 1 = [⟨4000, 3700⟩] := by
    norm_num [get_pin_history, historyState]
  have h2 : specGetHistory historyState 4000 5 1 = [] := by
    norm_num [specGetHistory, historyState, Entry.start]
  have h3 : get_pin_history historyState 4000 5 0 = [⟨4000, 3700⟩] := by
    norm_num [get_pin_history, historyState]
  refine ⟨h1, h2, ?_, h3⟩
  rw [h1, h2]
  simp

/-- C1, amended.  `get_pin_history s now pin h` returns exactly the entries of
the history buffer whose stored END timestamp (the falling-edge time) is at
least `now - h` hours, in buffer order; with `h = 0` it returns the entries
ending at `now` or later, which is empty whenever every recorded entry ended
strictly before `now`. -/
theorem get_history_end_filtered (s : MonitorState) (now : ℚ) (pin : ℕ)
    (hours : ℚ) (l : List Entry)
    (hl : s.high_duration_history pin = some l) :
    (get_pin_history s now pin hours).Sublist l ∧
    (∀ e, e ∈ get_pin_history s now pin hours ↔
      e ∈ l ∧ now - 3600 * hours ≤ e.timestamp) ∧
    (hours = 0 → (∀ e ∈ l, e.timestamp < now) →
      get_pin_history s now pin hours = []) := by
  have hdef : get_pin_history s now pin hours =
      l.filter (fun e => decide (now - 3600 * hours ≤ e.timestamp)) := by
    simp [get_pin_history, hl]
  refine ⟨?_, ?_, ?_⟩
  · rw [hdef]; exact List.filter_sublist l
  · intro e
    rw [hdef, List.mem_filter]
    simp
  · intro h0 hall
    rw [hdef]
    refine List.filter_eq_nil_iff.mpr (fun e he => ?_)
    have := hall e he
    simp only [h0, mul_zero, sub_zero, decide_eq_true_eq]
    exact not_le.mpr this

theorem get_history_end_filtered_witness :
    historyState.high_duration_history 5 = some [⟨4000, 3700⟩] ∧
    (get_pin_history historyState 4000 5 1).Sublist [⟨4000, 3700⟩] ∧
    (⟨4000, 3700⟩ : Entry) ∈ get_pin_history historyState 4000 5 1 :=
  ⟨by simp [historyState],
   (get_history_end_filtered historyState 4000 5 1 [⟨4000, 3700⟩]
      (by simp [historyState])).1,
   ((get_history_end_filtered historyState 4000 5 1 [⟨4000, 3700⟩]
      (by simp [historyState])).2.1 ⟨4000, 3700⟩).mpr
     ⟨by simp, by norm_num⟩⟩

/-- C5.  Along every run from the initial state, every history buffer holds
at most 1000 entries; and appending to a buffer already holding exactly 1000
entries drops exactly the oldest entry and keeps the 999 newer ones followed
by the new entry. -/
theorem history_capacity_invariant (labels : ℕ → Option String)
    (levels : ℕ → ℕ) (pins : List ℕ) (t0 : ℚ) (ops : List Op) :
    (∀ pin l,
      (runE pins ops (initState labels levels pins t0)).1.high_duration_history pin = some l →
      l.length ≤ 1000) ∧
    (∀ (l : List Entry) (e : Entry), l.length = 1000 →
      dequeAppend l e = l.drop 1 ++ [e] ∧ (dequeAppend l e).length = 1000) := by
  constructor
  · have hinit : HistoryBounded (initState labels levels pins t0) := by
      intro q l hl; simp [initState] at hl
    exact fun pin l hl => runE_bounded pins ops _ hinit pin l hl
  · intro l e hlen
    have hnlt : ¬ l.length < capacity := by rw [hlen]; simp [capacity]
    unfold dequeAppend
    rw [if_neg hnlt]
    refine ⟨by rw [← List.drop_one], ?_⟩
    simp only [List.length_append, List.length_tail, hlen, List.length_singleton]

theorem small_run_history :
    (runE [17] [Op.tick 0 (fun _ => some 1), Op.tick 1 (fun _ => some 0)]
        (initState (fun _ => none) (fun _ => 0) [17] 0)).1.high_duration_history 17 =
      some [⟨1, 1⟩] := by
  norm_num [runE, stepE, tickE, processPinE, initState, Function.update,
    dequeAppend, capacity]

theorem history_capacity_invariant_witness :
    ((runE [17] [Op.tick 0 (fun _ => some 1), Op.tick 1 (fun _ => some 0)]
        (initState (fun _ => none) (fun _ => 0) [17] 0)).1.high_duration_history 17 =
      some [⟨1, 1⟩]) ∧
    ([(⟨1, 1⟩ : Entry)]).length ≤ 1000 ∧
    (List.replicate 1000 (⟨0, 0⟩ : Entry)).length = 1000 ∧
    dequeAppend (List.replicate 1000 ⟨0, 0⟩) ⟨5, 5⟩ =
      (List.replicate 1000 (⟨0, 0⟩ : Entry)).drop 1 ++ [⟨5, 5⟩] :=
  ⟨small_run_history,
   (history_capacity_invariant (fun _ => none) (fun _ => 0) [17] 0
      [Op.tick 0 (fun _ => some 1), Op.tick 1 (fun _ => some 0)]).1 17 [⟨1, 1⟩]
      small_run_history,
   by simp only [List.length_replicate],
   ((history_capacity_invariant (fun _ => none) (fun _ => 0) [] 0 []).2
      (List.replicate 1000 ⟨0, 0⟩) ⟨5, 5⟩
      (by simp only [List.length_replicate])).1⟩

/-- C6.  `reset_counters` zeroes every transition count and empties the
history buffer of every monitored pin, and leaves every other field — levels,
pending high starts, last transition times, labels, and the history of
non-monitored pins — exactly as it was. -/
theorem reset_counters_frame (s : MonitorState) (pins : List ℕ) :
    (∀ pin, (reset_counters pins s).transition_counts pin = 0) ∧
    (∀ pin, pin ∈ pins →
      (reset_counters pins s).high_duration_history pin = some []) ∧
    (∀ pin, pin ∉ pins →
      (reset_counters pins s).high_duration_history pin =
        s.high_duration_history pin) ∧
    (reset_counters pins s).current_high_start = s.current_high_start ∧
    (reset_counters pins s).pin_states = s.pin_states ∧
    (reset_counters pins s).last_transition_time = s.last_transition_time ∧
    (reset_counters pins s).pin_labels = s.pin_labels := by
  refine ⟨fun pin => rfl, fun pin hp => ?_, fun pin hp => ?_, rfl, rfl, rfl, rfl⟩
  · simp [reset_counters, hp]
  · simp [reset_counters, hp]

theorem reset_counters_frame_witness :
    (5 ∈ [5]) ∧
    (reset_counters [5] busyState).transition_counts 5 = 0 ∧
    (reset_counters [5] busyState).high_duration_history 5 = some [] ∧
    (reset_counters [5] busyState).current_high_start 5 = some 4 ∧
    (reset_counters [5] busyState).pin_states 5 = 1 :=
  ⟨by decide,
   (reset_counters_frame busyState [5]).1 5,
   (reset_counters_frame busyState [5]).2.1 5 (by decide),
   (congrFun (reset_counters_frame busyState [5]).2.2.2.1 5).trans
     (by simp [busyState]),
   (congrFun (reset_counters_frame busyState [5]).2.2.2.2.1 5).trans
     (by simp [busyState, initState])⟩

/-- C7, counterexample.  `_load_config` catches only `FileNotFoundError`; a
malformed (unparseable) configuration file raises instead of returning the
defaults, so loading does not always return a configuration. -/
theorem load_config_malformed_raises :
    load_config ConfigSrc.malformed = Except.error () ∧
    load_config ConfigSrc.malformed ≠ Except.ok defaultConfig :=
  ⟨rfl, fun h => Except.noConfusion h⟩

/-- C7, amended.  A missing configuration file yields the default
configuration (pins 2 through 27, 0.1 second interval, 60 minute window,
no labels) and a well-formed file yields its parsed contents, but a
malformed file raises a parse error that propagates out of startup. -/
theorem load_config_missing_defaults :
    load_config ConfigSrc.missing = Except.ok defaultConfig ∧
    defaultConfig.pins_to_monitor =
      [2, 3, 4, 5, 6, 7, 8, 9, 10, 11, 12, 13, 14, 15, 16, 17, 18, 19, 20,
       21, 22, 23, 24, 25, 26, 27] ∧
    defaultConfig.update_interval = 1 / 10 ∧
    defaultConfig.history_duration_minutes = 60 ∧
    (∀ p, defaultConfig.pin_labels p = none) ∧
    (∀ c, load_config (ConfigSrc.parsed c) = Except.ok c) ∧
    load_config ConfigSrc.malformed = Except.error () :=
  ⟨rfl, by decide, rfl, rfl, fun p => rfl, fun c => rfl, rfl⟩

/-- C10.  For a pin with no recorded history — whether its key is absent
(never completed a high interval, or never monitored) or its buffer is empty
— `get_pin_history` returns the empty list for every `hours` value; the
embedded function is total, so no exception is possible. -/
theorem get_history_empty_without_records (s : MonitorState) (now : ℚ)
    (pin : ℕ) (hours : ℚ)
    (h : s.high_duration_history pin = none ∨
         s.high_duration_history pin = some []) :
    get_pin_history s now pin hours = [] := by
  rcases h with h | h <;> simp [get_pin_history, h]

theorem get_history_empty_without_records_witness :
    ((initState (fun _ => none) (fun _ => 0) [2] 0).high_duration_history 99 = none ∨
     (initState (fun _ => none) (fun _ => 0) [2] 0).high_duration_history 99 = some []) ∧
    get_pin_history (initState (fun _ => none) (fun _ => 0) [2] 0) 12 99 7 = [] :=
  ⟨Or.inl rfl,
   get_history_empty_without_records (initState (fun _ => none) (fun _ => 0) [2] 0)
     12 99 7 (Or.inl rfl)⟩

/-- C3.  On a line at level 0 with no transitions and an empty history, a
rising edge at `t0` followed by a falling edge at `t1 ≥ t0` leaves 2
transitions, exactly one recorded interval ending at `t1` with duration
`t1 - t0` (hence starting at `t0`, the rising-edge timestamp), no pending
high start, and level 0. -/
theorem rising_then_falling (s : MonitorState) (p : ℕ) (t0 t1 : ℚ)
    (hle : t0 ≤ t1) (hst : s.pin_states p = 0) (hct : s.transition_counts p = 0)
    (hh : s.high_duration_history p = none ∨ s.high_duration_history p = some []) :
    (tick [p] (fun _ => some 0) t1 (tick [p] (fun _ => some 1) t0 s)).transition_counts p = 2 ∧
    (tick [p] (fun _ => some 0) t1 (tick [p] (fun _ => some 1) t0 s)).high_duration_history p =
      some [⟨t1, t1 - t0⟩] ∧
    Entry.start ⟨t1, t1 - t0⟩ = t0 ∧
    (⟨t1, t1 - t0⟩ : Entry).duration = t1 - t0 ∧
    0 ≤ (⟨t1, t1 - t0⟩ : Entry).duration ∧
    (tick [p] (fun _ => some 0) t1 (tick [p] (fun _ => some 1) t0 s)).current_high_start p = none ∧
    (tick [p] (fun _ => some 0) t1 (tick [p] (fun _ => some 1) t0 s)).pin_states p = 0 := by
  rcases hh with hh | hh <;>
    refine ⟨?_, ?_, ?_, ?_, ?_, ?_, ?_⟩ <;>
      simp [tick, tickE, processPinE, hst, hct, hh, dequeAppend, capacity,
        Function.update_same, Entry.start, sub_sub_cancel, sub_nonneg, hle]

theorem rising_then_falling_witness :
    ((0 : ℚ) ≤ 1) ∧
    ((initState (fun _ => none) (fun _ => 0) [17] 0).pin_states 17 = 0) ∧
    (tick [17] (fun _ => some 0) 1
      (tick [17] (fun _ => some 1) 0
        (initState (fun _ => none) (fun _ => 0) [17] 0))).transition_counts 17 = 2 ∧
    (tick [17] (fun _ => some 0) 1
      (tick [17] (fun _ => some 1) 0
        (initState (fun _ => none) (fun _ => 0) [17] 0))).high_duration_history 17 =
      some [⟨1, 1⟩] ∧
    (tick [17] (fun _ => some 0) 1
      (tick [17] (fun _ => some 1) 0
        (initState (fun _ => none) (fun _ => 0) [17] 0))).current_high_start 17 = none :=
  ⟨by norm_num, by decide,
   (rising_then_falling (initState (fun _ => none) (fun _ => 0) [17] 0) 17 0 1
      (by norm_num) (by decide) rfl (Or.inl rfl)).1,
   by
    have h := (rising_then_falling (initState (fun _ => none) (fun _ => 0) [17] 0)
      17 0 1 (by norm_num) (by decide) rfl (Or.inl rfl)).2.1
    rw [h]
    norm_num,
   (rising_then_falling (initState (fun _ => none) (fun _ => 0) [17] 0) 17 0 1
      (by norm_num) (by decide) rfl (Or.inl rfl)).2.2.2.2.2.1⟩

/-- C9.  If the read of pin `p` fails during a tick, then after the tick the
stored level, transition count, last transition time, pending high start and
history of `p` are exactly as before the tick — no interval is recorded for
it — and the whole tick, state and observations alike, equals the tick that
scans every other pin without `p`. -/
theorem read_failure_skips_pin (pins : List ℕ) (readings : ℕ → Option ℕ)
    (t : ℚ) (s : MonitorState) (p : ℕ) (hp : readings p = none) :
    (tick pins readings t s).pin_states p = s.pin_states p ∧
    (tick pins readings t s).transition_counts p = s.transition_counts p ∧
    (tick pins readings t s).last_transition_time p = s.last_transition_time p ∧
    (tick pins readings t s).high_duration_history p = s.high_duration_history p ∧
    (tick pins readings t s).current_high_start p = s.current_high_start p ∧
    tickE readings t pins s =
      tickE readings t (pins.filter (fun q => q != p)) s := by
  obtain ⟨h1, h2, h3, h4, h5, _⟩ := tickE_fields_at_skipped readings t p hp pins s
  exact ⟨h1, h2, h3, h4, h5, tickE_skip readings t p hp pins s⟩

theorem read_failure_skips_pin_witness :
    ((fun q => if q = 9 then none else some 1) 9 = (none : Option ℕ)) ∧
    (tick [9, 17] (fun q => if q = 9 then none else some 1) 3
      (initState (fun _ => none) (fun _ => 0) [9, 17] 0)).transition_counts 9 =
      (initState (fun _ => none) (fun _ => 0) [9, 17] 0).transition_counts 9 ∧
    tickE (fun q => if q = 9 then none else some 1) 3 [9, 17]
        (initState (fun _ => none) (fun _ => 0) [9, 17] 0) =
      tickE (fun q => if q = 9 then none else some 1) 3
        ([9, 17].filter (fun q => q != 9))
        (initState (fun _ => none) (fun _ => 0) [9, 17] 0) :=
  ⟨rfl,
   (read_failure_skips_pin [9, 17] (fun q => if q = 9 then none else some 1) 3
      (initState (fun _ => none) (fun _ => 0) [9, 17] 0) 9 rfl).2.1,
   (read_failure_skips_pin [9, 17] (fun q => if q = 9 then none else some 1) 3
      (initState (fun _ => none) (fun _ => 0) [9, 17] 0) 9 rfl).2.2.2.2.2⟩

/-- C2.  Along every run from the initial state whose tick timestamps are
non-decreasing (and no earlier than the setup time), every recorded interval
has a non-negative duration, and its start — the stored end timestamp minus
the stored duration — is the timestamp of an observed rising edge of that
pin, the tick at which the pending high start was set. -/
theorem recorded_intervals_sound (labels : ℕ → Option String) (levels : ℕ → ℕ)
    (pins : List ℕ) (t0 : ℚ) (ops : List Op)
    (hmono : List.Chain (· ≤ ·) t0 (opTimes ops)) :
    ∀ pin l e,
      (runE pins ops (initState labels levels pins t0)).1.high_duration_history pin = some l →
      e ∈ l →
      0 ≤ e.duration ∧
      Event.edge pin 0 1 (Entry.start e) ∈
        (runE pins ops (initState labels levels pins t0)).2 := by
  have hp : PendingSound (initState labels levels pins t0) [] t0 := by
    intro q hs hq
    simp [initState] at hq
  have hh : HistorySound (initState labels levels pins t0) [] := by
    intro q l hl
    simp [initState] at hl
  obtain ⟨b2, _, hh2⟩ :=
    runE_sound pins ops (initState labels levels pins t0) [] t0 hp hh hmono
  intro pin l e hl hm
  have hres := hh2 pin l hl e hm
  rwa [List.nil_append] at hres

theorem recorded_intervals_sound_witness :
    List.Chain (· ≤ ·) 0
      (opTimes [Op.tick 0 (fun _ => some 1), Op.tick 1 (fun _ => some 0)]) ∧
    (0 ≤ (⟨1, 1⟩ : Entry).duration ∧
      Event.edge 17 0 1 (Entry.start ⟨1, 1⟩) ∈
        (runE [17] [Op.tick 0 (fun _ => some 1), Op.tick 1 (fun _ => some 0)]
          (initState (fun _ => none) (fun _ => 0) [17] 0)).2) :=
  ⟨by norm_num [opTimes, List.chain_cons],
   recorded_intervals_sound (fun _ => none) (fun _ => 0) [17] 0
     [Op.tick 0 (fun _ => some 1), Op.tick 1 (fun _ => some 0)]
     (by norm_num [opTimes, List.chain_cons]) 17 [⟨1, 1⟩] ⟨1, 1⟩
     small_run_history (by simp)⟩

/-- C4, counterexample.  `_setup_simulation` draws each initial level from
`random.choice([0, 1])` and never creates pending high starts, so the initial
state may hold a line at level 1 with no pending entry: the claimed
equivalence fails at the initial state. -/
theorem pending_iff_high_refuted :
    (initState (fun _ => none) (fun _ => 1) [17] 0).pin_states 17 = 1 ∧
    (initState (fun _ => none) (fun _ => 1) [17] 0).current_high_start 17 = none ∧
    ¬ ((initState (fun _ => none) (fun _ => 1) [17] 0).pin_states 17 = 1 ↔
       ((initState (fun _ => none) (fun _ => 1) [17] 0).current_high_start 17).isSome = true) := by
  decide

/-- C4, amended.  In every state reachable from startup with binary readings:
a pending high start implies the stored level is high; for every line that
has processed at least one edge, the level is high exactly when a pending
entry exists; and, in every state, a snapshot shows a positive live high
duration only with a pending entry — `current_high_duration` is 0 whenever
the pending entry is absent.  (The equivalence can fail before the first
edge of a line: see the counterexample.) -/
theorem pending_consistent_with_levels (labels : ℕ → Option String)
    (levels : ℕ → ℕ) (pins : List ℕ) (t0 : ℚ) (ops : List Op)
    (hlv : ∀ p, levels p ≤ 1) (hops : ∀ op ∈ ops, OpBinary op) :
    (∀ pin,
      ((runE pins ops (initState labels levels pins t0)).1.current_high_start pin).isSome →
      (runE pins ops (initState labels levels pins t0)).1.pin_states pin = 1) ∧
    (∀ pin o m u,
      Event.edge pin o m u ∈ (runE pins ops (initState labels levels pins t0)).2 →
      ((runE pins ops (initState labels levels pins t0)).1.pin_states pin = 1 ↔
       ((runE pins ops (initState labels levels pins t0)).1.current_high_start pin).isSome)) ∧
    (∀ (s : MonitorState) (now : ℚ) (pin : ℕ),
      s.current_high_start pin = none → live_high_duration s now pin = 0) := by
  have hb : LevelsBinary (initState labels levels pins t0) := by
    intro q
    simp only [initState]
    split
    · exact hlv q
    · omega
  have hph : PendingHigh (initState labels levels pins t0) := by
    intro q hq
    simp [initState] at hq
  have hes : EdgeSettled (initState labels levels pins t0) [] := by
    intro q o m u hm
    simp at hm
  obtain ⟨_, hph2, hes2⟩ :=
    runE_consistent pins ops (initState labels levels pins t0) [] hops hb hph hes
  rw [List.nil_append] at hes2
  exact ⟨hph2, hes2, fun s now pin hnone => by simp [live_high_duration, hnone]⟩

theorem pending_consistent_with_levels_witness :
    (∀ p, (fun _ => 0 : ℕ → ℕ) p ≤ 1) ∧
    (∀ op ∈ [Op.tick 0 (fun _ => some 1)], OpBinary op) ∧
    (runE [17] [Op.tick 0 (fun _ => some 1)]
      (initState (fun _ => none) (fun _ => 0) [17] 0)).1.pin_states 17 = 1 :=
  ⟨fun _ => Nat.zero_le 1,
   by
    intro op hop
    simp only [List.mem_singleton] at hop
    subst hop
    intro p n h
    cases h
    decide,
   (pending_consistent_with_levels (fun _ => none) (fun _ => 0) [17] 0
      [Op.tick 0 (fun _ => some 1)] (fun _ => Nat.zero_le 1)
      (by
        intro op hop
        simp only [List.mem_singleton] at hop
        subst hop
        intro p n h
        cases h
        decide)).1 17
     (by
      have : (runE [17] [Op.tick 0 (fun _ => some 1)]
          (initState (fun _ => none) (fun _ => 0) [17] 0)).1.current_high_start 17 =
          some 0 := by
        norm_num [runE, stepE, tickE, processPinE, initState, Function.update]
      rw [this]
      rfl)⟩

/-- C8.  The state-change deliveries of one tick over a duplicate-free scan
list are exactly one `{line, old_level, new_level, tick_timestamp}` record
per processed edge, in processing order, before the tick step returns — the
delivery mechanism itself is modelled from the spec because
`set_state_change_callback` is absent from src (see `deliveredChanges`) —
and `WebServer._on_gpio_state_change` publishes the full `get_pin_status`
snapshot under `gpio_update` for every delivered change. -/
theorem edge_change_deliveries (pins : List ℕ) (readings : ℕ → Option ℕ)
    (t : ℚ) (s : MonitorState) (hnd : pins.Nodup) :
    deliveredChanges pins readings t s = pins.filterMap (fun p =>
      match readings p with
      | none => none
      | some n =>
        if n = s.pin_states p then none
        else some ⟨p, s.pin_states p, n, t⟩) ∧
    (∀ (c : StateChange) (now : ℚ),
      on_gpio_state_change s now pins c =
        ("gpio_update", get_pin_status s now pins)) := by
  constructor
  · unfold deliveredChanges
    rw [tickE_events readings t pins s hnd, List.map_filterMap]
    refine filterMap_congr_mem _ _ pins (fun p hp => ?_)
    rcases hrp : readings p with _ | n
    · simp
    · by_cases h : n = s.pin_states p
      · simp [h]
      · simp [h]
  · intro c now
    rfl

theorem edge_change_deliveries_witness :
    ([17, 5] : List ℕ).Nodup ∧
    deliveredChanges [17, 5] (fun q => if q = 17 then some 1 else none) 4
      (initState (fun _ => none) (fun _ => 0) [17, 5] 0) = [⟨17, 0, 1, 4⟩] ∧
    on_gpio_state_change (initState (fun _ => none) (fun _ => 0) [17, 5] 0) 9
        [17, 5] ⟨17, 0, 1, 4⟩ =
      ("gpio_update", get_pin_status
        (initState (fun _ => none) (fun _ => 0) [17, 5] 0) 9 [17, 5]) :=
  ⟨by decide,
   ((edge_change_deliveries [17, 5] (fun q => if q = 17 then some 1 else none) 4
      (initState (fun _ => none) (fun _ => 0) [17, 5] 0) (by decide)).1).trans
     (by decide),
   (edge_change_deliveries [17, 5] (fun q => if q = 17 then some 1 else none) 4
      (initState (fun _ => none) (fun _ => 0) [17, 5] 0) (by decide)).2
     ⟨17, 0, 1, 4⟩ 9⟩

end GpioMonitor
